import Mathlib

/-!
Verification development for the `en-parse` dependency builder
(`src/relating.ts`).

The embedding below translates the source file's functions into Lean:
`identifyRoot`, `buildRelationships` (with its inner right-to-left pass),
`matchNodes`, `findBy`, and `deContract`.  Two external collaborators are
kept abstract, exactly as the specification treats them:

* the Conjugator (`new Inflectors(t).conjugate "VBP"` from the external
  `en-inflectors` package) is a parameter `conj : String → String`;
* the rule table (`relationships`, imported from `./rules/relationships`,
  which is not part of the core source) is a parameter `rules : List Rule`
  whose schema follows the specification's Rule record.

`NodeInterface` is imported by the source from `./index` (also outside the
core); the `Node` type below is modelled from the specification's data
model: `type`, `tags`, `tokens`, an integer span `index = [start, end]`
(accessed in the source as `index[0]` / `index[1]`), an optional `label`
(unset until assigned), and the two child lists `left` / `right`.
-/

namespace EnParse

/-- One entry of the rule table (`relationships`), following the Rule
schema of the specification. -/
structure Rule where
  left : List String
  right : List String
  leftTokens : List String
  rightTokens : List String
  direction : String
  label : String
  delay : Int
  maxDistance : Int

/-- The `MatchResult` interface of the source. -/
structure MatchResult where
  direction : String
  label : String
deriving DecidableEq

/-- A sentence chunk (`NodeInterface`): syntactic type, POS tags, surface
tokens, original span, optional dependency label, and the two child
lists. -/
inductive Node where
  | mk (type_ : String) (tags : List String) (tokens : List String)
      (idx0 : Int) (idx1 : Int) (label : Option String)
      (left : List Node) (right : List Node) : Node

def Node.type : Node → String
  | .mk t _ _ _ _ _ _ _ => t

def Node.tags : Node → List String
  | .mk _ a _ _ _ _ _ _ => a

def Node.tokens : Node → List String
  | .mk _ _ a _ _ _ _ _ => a

def Node.idx0 : Node → Int
  | .mk _ _ _ a _ _ _ _ => a

def Node.idx1 : Node → Int
  | .mk _ _ _ _ a _ _ _ => a

def Node.label : Node → Option String
  | .mk _ _ _ _ _ a _ _ => a

def Node.left : Node → List Node
  | .mk _ _ _ _ _ _ a _ => a

def Node.right : Node → List Node
  | .mk _ _ _ _ _ _ _ a => a

/-- `node.label = s` (the source's label assignment). -/
def Node.setLabel (n : Node) (s : String) : Node :=
  match n with
  | .mk t a tok i0 i1 _ l r => .mk t a tok i0 i1 (some s) l r

/-- Replace the token list (used only to state token-normalization facts). -/
def Node.setTokens (n : Node) (ts : List String) : Node :=
  match n with
  | .mk t a _ i0 i1 lb l r => .mk t a ts i0 i1 lb l r

/-- `node.left.push c` (the source's splice of a left child). -/
def Node.pushLeft (n : Node) (c : Node) : Node :=
  match n with
  | .mk t a tok i0 i1 lb l r => .mk t a tok i0 i1 lb (l ++ [c]) r

/-- `node.right.push c` (the source's splice of a right child). -/
def Node.pushRight (n : Node) (c : Node) : Node :=
  match n with
  | .mk t a tok i0 i1 lb l r => .mk t a tok i0 i1 lb l (r ++ [c])

/-- Forget the label (used to state structure-preservation facts). -/
def Node.clearLabel : Node → Node
  | .mk t a tok i0 i1 _ l r => .mk t a tok i0 i1 none l r

@[simp] theorem Node.type_setLabel (n : Node) (s : String) :
    (n.setLabel s).type = n.type := by cases n; rfl

@[simp] theorem Node.tags_setLabel (n : Node) (s : String) :
    (n.setLabel s).tags = n.tags := by cases n; rfl

@[simp] theorem Node.tokens_setLabel (n : Node) (s : String) :
    (n.setLabel s).tokens = n.tokens := by cases n; rfl

@[simp] theorem Node.idx0_setLabel (n : Node) (s : String) :
    (n.setLabel s).idx0 = n.idx0 := by cases n; rfl

@[simp] theorem Node.idx1_setLabel (n : Node) (s : String) :
    (n.setLabel s).idx1 = n.idx1 := by cases n; rfl

@[simp] theorem Node.label_setLabel (n : Node) (s : String) :
    (n.setLabel s).label = some s := by cases n; rfl

@[simp] theorem Node.left_setLabel (n : Node) (s : String) :
    (n.setLabel s).left = n.left := by cases n; rfl

@[simp] theorem Node.right_setLabel (n : Node) (s : String) :
    (n.setLabel s).right = n.right := by cases n; rfl

@[simp] theorem Node.type_pushLeft (n c : Node) :
    (n.pushLeft c).type = n.type := by cases n; rfl

@[simp] theorem Node.label_pushLeft (n c : Node) :
    (n.pushLeft c).label = n.label := by cases n; rfl

@[simp] theorem Node.left_pushLeft (n c : Node) :
    (n.pushLeft c).left = n.left ++ [c] := by cases n; rfl

@[simp] theorem Node.right_pushLeft (n c : Node) :
    (n.pushLeft c).right = n.right := by cases n; rfl

@[simp] theorem Node.type_pushRight (n c : Node) :
    (n.pushRight c).type = n.type := by cases n; rfl

@[simp] theorem Node.label_pushRight (n c : Node) :
    (n.pushRight c).label = n.label := by cases n; rfl

@[simp] theorem Node.left_pushRight (n c : Node) :
    (n.pushRight c).left = n.left := by cases n; rfl

@[simp] theorem Node.right_pushRight (n c : Node) :
    (n.pushRight c).right = n.right ++ [c] := by cases n; rfl

@[simp] theorem Node.type_setTokens (n : Node) (ts : List String) :
    (n.setTokens ts).type = n.type := by cases n; rfl

@[simp] theorem Node.tags_setTokens (n : Node) (ts : List String) :
    (n.setTokens ts).tags = n.tags := by cases n; rfl

@[simp] theorem Node.tokens_setTokens (n : Node) (ts : List String) :
    (n.setTokens ts).tokens = ts := by cases n; rfl

@[simp] theorem Node.idx0_setTokens (n : Node) (ts : List String) :
    (n.setTokens ts).idx0 = n.idx0 := by cases n; rfl

@[simp] theorem Node.idx1_setTokens (n : Node) (ts : List String) :
    (n.setTokens ts).idx1 = n.idx1 := by cases n; rfl

@[simp] theorem Node.label_setTokens (n : Node) (ts : List String) :
    (n.setTokens ts).label = n.label := by cases n; rfl

@[simp] theorem Node.left_setTokens (n : Node) (ts : List String) :
    (n.setTokens ts).left = n.left := by cases n; rfl

@[simp] theorem Node.right_setTokens (n : Node) (ts : List String) :
    (n.setTokens ts).right = n.right := by cases n; rfl

/-! ### Constant tables of the source -/

/-- `vbs` — conjugated-verb (candidate root) types. -/
def vbs : List String := ["VP", "VB", "VBN"]

/-- `pa` — possible-auxiliary first tags. -/
def pa : List String := ["VBZ", "VB", "VBP", "VBD", "MD", "VBN"]

/-- `oe` — auxiliary lemmas. -/
def oe : List String := ["be", "have", "do", "will", "shall", "may", "can"]

/-- `contractions` — contraction surface forms. -/
def contractions : List String := ["'m", "'s", "'d", "'ll", "'re", "'ve"]

/-- `replacements` — the corresponding full forms. -/
def replacements : List String := ["am", "is", "would", "will", "are", "have"]

/-- `deContract`: reverse an English contraction to its normal form via
`contractions.indexOf` and the parallel `replacements` table. -/
def deContract (token : String) : String :=
  match contractions.indexOf? token with
  | some ci => replacements.getD ci token
  | none => token

/-- `findBy.type` from the source. -/
def findBy.type (t : String) (nodes : List Node) : Bool :=
  nodes.any fun node => node.type == t

/-- `findBy.label` from the source. -/
def findBy.label (lb : String) (nodes : List Node) : Bool :=
  nodes.any fun node => node.label == some lb

/-! ### Root identifier -/

/-- The auxiliary / non-candidate decision of the `identifyRoot` loop body
(source lines 50–67) for the node at the current position, given the up to
three lookahead nodes `nodes[i+1]`, `nodes[i+2]`, `nodes[i+3]`.  Returns
`true` exactly when the source executes `continue` for this position. -/
def skipNode (conj : String → String) (node : Node)
    (nx1 nx2 nx3 : Option Node) : Bool :=
  if !(vbs.contains node.type) then true
  else
    match nx1 with
    | none => false
    | some n1 =>
      if !(pa.contains (node.tags.headD "")) then false
      else if vbs.contains n1.type then true
      else if n1.tags.headD "" == "RB" then
        match nx2 with
        | none => false
        | some n2 =>
          if vbs.contains n2.type then true
          else
            match nx3 with
            | none => false
            | some n3 => n2.type == "NP" && vbs.contains n3.type
      else
        match nx2 with
        | none => false
        | some n2 =>
          if node.idx0 == 0 then
            if n1.type == "NP" && vbs.contains n2.type then true
            else
              match nx3 with
              | none => false
              | some n3 =>
                n1.type == "NP" && n2.tags.headD "" == "RB" &&
                  vbs.contains n3.type
          else
            oe.contains (conj (deContract (n1.tokens.headD ""))) &&
              vbs.contains n2.type

/-- `identifyRoot`: scan left to right; at the first position not skipped
by `skipNode`, set the node's label to `"ROOT"` and stop. -/
def identifyRoot (conj : String → String) : List Node → List Node
  | [] => []
  | node :: rest =>
    if skipNode conj node rest[0]? rest[1]? rest[2]? then
      node :: identifyRoot conj rest
    else
      node.setLabel "ROOT" :: rest

/-! ### Rule matcher -/

/-- `matchNodes`: scan the rule table in order; each `continue` of the
source is a recursive call on the remaining rules; the first rule passing
every condition is returned. -/
def matchNodes (conj : String → String) (rules : List Rule)
    (l r : Node) (iteration : Int) : Option MatchResult :=
  match rules with
  | [] => none
  | rel :: rest =>
    -- condition : Type
    if !rel.left.isEmpty && !(rel.left.contains l.type) then
      matchNodes conj rest l r iteration
    else if !rel.right.isEmpty && !(rel.right.contains r.type) then
      matchNodes conj rest l r iteration
    -- Condition : Delay
    else if decide (rel.delay ≠ -1) && decide (iteration ≤ rel.delay) then
      matchNodes conj rest l r iteration
    -- Condition : maximum distance
    else if decide (rel.maxDistance ≠ -1) &&
        decide ((r.idx0 - l.idx1) - 1 > rel.maxDistance) then
      matchNodes conj rest l r iteration
    -- Condition : direction & root
    else if rel.direction == "<-" && r.label == some "ROOT" then
      matchNodes conj rest l r iteration
    else if rel.direction == "->" && l.label == some "ROOT" then
      matchNodes conj rest l r iteration
    -- condition : no two subjects
    else if rel.label == "NSUBJ" && rel.direction == "->" &&
        findBy.label "NSUBJ" r.left then
      matchNodes conj rest l r iteration
    else if rel.label == "NSUBJPASS" && rel.direction == "->" &&
        findBy.label "NSUBJPASS" r.left then
      matchNodes conj rest l r iteration
    -- condition : tokens
    else if !rel.leftTokens.isEmpty &&
        !(rel.leftTokens.contains (conj (deContract (l.tokens.headD "")))) then
      matchNodes conj rest l r iteration
    else if !rel.rightTokens.isEmpty &&
        !(rel.rightTokens.contains (conj (deContract (r.tokens.headD "")))) then
      matchNodes conj rest l r iteration
    else
      some ⟨rel.direction, rel.label⟩

/-- All ten matching conditions of one rule, as a single predicate: `true`
exactly when `matchNodes` would accept this rule for this pair at this
iteration. -/
def ruleAccepts (conj : String → String) (rel : Rule)
    (l r : Node) (iteration : Int) : Bool :=
  !((!rel.left.isEmpty && !(rel.left.contains l.type)) ||
    (!rel.right.isEmpty && !(rel.right.contains r.type)) ||
    (decide (rel.delay ≠ -1) && decide (iteration ≤ rel.delay)) ||
    (decide (rel.maxDistance ≠ -1) &&
      decide ((r.idx0 - l.idx1) - 1 > rel.maxDistance)) ||
    (rel.direction == "<-" && r.label == some "ROOT") ||
    (rel.direction == "->" && l.label == some "ROOT") ||
    (rel.label == "NSUBJ" && rel.direction == "->" &&
      findBy.label "NSUBJ" r.left) ||
    (rel.label == "NSUBJPASS" && rel.direction == "->" &&
      findBy.label "NSUBJPASS" r.left) ||
    (!rel.leftTokens.isEmpty &&
      !(rel.leftTokens.contains (conj (deContract (l.tokens.headD ""))))) ||
    (!rel.rightTokens.isEmpty &&
      !(rel.rightTokens.contains (conj (deContract (r.tokens.headD ""))))))

/-! ### Reduction engine -/

/-- One pass of the `buildRelationships` `for` loop: visit adjacent pairs
from the rightmost (`l = length - 2`) down to the leftmost (`l = 0`); on a
`"<-"` match relabel the right node and push it onto the left node's
`right` children; on a `"->"` match relabel the left node and push it onto
the right node's `left` children; the merged node then takes part in the
next (more leftward) pair, exactly as the source's in-place splice does. -/
def mergeStep (conj : String → String) (rules : List Rule)
    (iteration : Int) (x : Node) : List Node → List Node
  | [] => [x]
  | z :: zs =>
    match matchNodes conj rules x z iteration with
    | none => x :: z :: zs
    | some m =>
      if m.direction == "<-" then
        x.pushRight (z.setLabel m.label) :: zs
      else if m.direction == "->" then
        z.pushLeft (x.setLabel m.label) :: zs
      else
        x :: z :: zs

def reducePass (conj : String → String) (rules : List Rule)
    (iteration : Int) : List Node → List Node
  | [] => []
  | [x] => [x]
  | x :: y :: rest =>
    mergeStep conj rules iteration x (reducePass conj rules iteration (y :: rest))

/-- The `while` loop of `buildRelationships`: the fuel counts the
remaining iterations allowed by `iteration < recursionLimit`. -/
def buildRelLoop (conj : String → String) (rules : List Rule) :
    Nat → Int → List Node → List Node
  | 0, _, nodes => nodes
  | fuel + 1, iteration, nodes =>
    if nodes.length > 1 then
      buildRelLoop conj rules fuel (iteration + 1)
        (reducePass conj rules iteration nodes)
    else
      nodes

/-- `buildRelationships`: run passes while `iteration < recursionLimit`
and more than one node remains. -/
def buildRelationships (conj : String → String) (rules : List Rule)
    (nodes : List Node) (recursionLimit : Int) : List Node :=
  buildRelLoop conj rules recursionLimit.toNat 0 nodes

/-- The file's default export: identify the root, then build the
relationships. -/
def relate (conj : String → String) (rules : List Rule)
    (nodes : List Node) (recursionLimit : Int) : List Node :=
  buildRelationships conj rules (identifyRoot conj nodes) recursionLimit

/-! ### Invariant predicates over the node forest -/

mutual

/-- No strict descendant of `n` is labeled `"ROOT"`. -/
def Node.rootFree : Node → Bool
  | .mk _ _ _ _ _ _ l r => Node.rootFreeList l && Node.rootFreeList r

/-- Every node of the list, with its whole subtree, carries no `"ROOT"`
label. -/
def Node.rootFreeList : List Node → Bool
  | [] => true
  | c :: cs => !(c.label == some "ROOT") && c.rootFree && Node.rootFreeList cs

end

/-- Number of nodes of the list whose label is `lb`. -/
def countLabel (lb : String) (nodes : List Node) : Nat :=
  (nodes.filter fun n => n.label == some lb).length

mutual

/-- The single-subject invariant on the subtree rooted at `n`: every
reachable node's `left` children contain at most one `"NSUBJ"` and at most
one `"NSUBJPASS"` label. -/
def Node.subjOk : Node → Bool
  | .mk _ _ _ _ _ _ l r =>
    decide (countLabel "NSUBJ" l ≤ 1) && decide (countLabel "NSUBJPASS" l ≤ 1) &&
      Node.subjOkList l && Node.subjOkList r

/-- `Node.subjOk` for every node of a list. -/
def Node.subjOkList : List Node → Bool
  | [] => true
  | c :: cs => c.subjOk && Node.subjOkList cs

end

mutual

/-- Number of `"ROOT"` labels in the whole subtree rooted at `n`,
including `n` itself. -/
def Node.rootCount : Node → Nat
  | .mk _ _ _ _ _ lb l r =>
    (if lb = some "ROOT" then 1 else 0) +
      Node.rootCountList l + Node.rootCountList r

/-- Total number of `"ROOT"` labels in a forest. -/
def Node.rootCountList : List Node → Nat
  | [] => 0
  | c :: cs => c.rootCount + Node.rootCountList cs

end

@[simp] theorem Node.rootFreeList_nil : Node.rootFreeList [] = true := rfl

@[simp] theorem Node.rootFreeList_cons (c : Node) (cs : List Node) :
    Node.rootFreeList (c :: cs) =
      (!(c.label == some "ROOT") && c.rootFree && Node.rootFreeList cs) := rfl

theorem Node.rootFree_def (n : Node) :
    n.rootFree = (Node.rootFreeList n.left && Node.rootFreeList n.right) := by
  cases n; rfl

theorem Node.rootFreeList_append (a b : List Node) :
    Node.rootFreeList (a ++ b) = (Node.rootFreeList a && Node.rootFreeList b) := by
  induction a with
  | nil => simp
  | cons c cs ih => simp [ih, Bool.and_assoc]

@[simp] theorem Node.rootFree_setLabel (n : Node) (s : String) :
    (n.setLabel s).rootFree = n.rootFree := by
  cases n; rfl

@[simp] theorem Node.rootFree_pushLeft (n c : Node) :
    (n.pushLeft c).rootFree =
      (n.rootFree && (!(c.label == some "ROOT") && c.rootFree)) := by
  cases n
  simp [Node.pushLeft, Node.rootFree, Node.rootFreeList_append]
  ac_rfl

@[simp] theorem Node.rootFree_pushRight (n c : Node) :
    (n.pushRight c).rootFree =
      (n.rootFree && (!(c.label == some "ROOT") && c.rootFree)) := by
  cases n
  simp [Node.pushRight, Node.rootFree, Node.rootFreeList_append, Bool.and_assoc]

theorem Node.rootFreeList_iff (ns : List Node) :
    Node.rootFreeList ns = true ↔
      ∀ n ∈ ns, n.label ≠ some "ROOT" ∧ n.rootFree = true := by
  induction ns with
  | nil => simp
  | cons c cs ih =>
    simp only [Node.rootFreeList_cons, Bool.and_assoc, Bool.and_eq_true, ih,
      List.mem_cons, Bool.not_eq_true', beq_eq_false_iff_ne]
    constructor
    · rintro ⟨h1, h2, h3⟩ n hn
      rcases hn with rfl | hn
      · exact ⟨h1, h2⟩
      · exact h3 n hn
    · intro h
      exact ⟨(h c (Or.inl rfl)).1, (h c (Or.inl rfl)).2,
        fun n hn => h n (Or.inr hn)⟩

/-! ### First-match-wins characterization of the matcher -/

theorem iteChain (b1 b2 b3 b4 b5 b6 b7 b8 b9 b10 : Bool)
    (k v : Option MatchResult) :
    (if b1 then k else if b2 then k else if b3 then k else if b4 then k
      else if b5 then k else if b6 then k else if b7 then k else if b8 then k
      else if b9 then k else if b10 then k else v) =
    (if !(b1 || b2 || b3 || b4 || b5 || b6 || b7 || b8 || b9 || b10) then v
      else k) := by
  cases b1 <;> simp
  cases b2 <;> simp
  cases b3 <;> simp
  cases b4 <;> simp
  cases b5 <;> simp
  cases b6 <;> simp
  cases b7 <;> simp
  cases b8 <;> simp
  cases b9 <;> simp
  cases b10 <;> simp

theorem matchNodes_cons (conj : String → String) (rel : Rule)
    (rest : List Rule) (l r : Node) (iteration : Int) :
    matchNodes conj (rel :: rest) l r iteration =
      if ruleAccepts conj rel l r iteration then
        some ⟨rel.direction, rel.label⟩
      else matchNodes conj rest l r iteration := by
  simp only [matchNodes, ruleAccepts]
  exact iteChain _ _ _ _ _ _ _ _ _ _ _ _

/-- `matchNodes` is first-match-wins: it returns the direction and label
of the first rule of the table accepted by `ruleAccepts`, or `none`. -/
theorem matchNodes_eq_find (conj : String → String) (rules : List Rule)
    (l r : Node) (iteration : Int) :
    matchNodes conj rules l r iteration =
      (rules.find? fun rel => ruleAccepts conj rel l r iteration).map
        fun rel => ⟨rel.direction, rel.label⟩ := by
  induction rules with
  | nil => rfl
  | cons rel rest ih =>
    rw [matchNodes_cons]
    by_cases h : ruleAccepts conj rel l r iteration = true
    · simp [List.find?, h]
    · simp only [Bool.not_eq_true] at h
      simp [List.find?, h, ih]

/-- A successful match comes from a rule of the table that passes all ten
conditions, and carries that rule's direction and label. -/
theorem matchNodes_some (conj : String → String) (rules : List Rule)
    (l r : Node) (iteration : Int) (m : MatchResult)
    (h : matchNodes conj rules l r iteration = some m) :
    ∃ rel ∈ rules, ruleAccepts conj rel l r iteration = true ∧
      m.direction = rel.direction ∧ m.label = rel.label := by
  rw [matchNodes_eq_find] at h
  rcases Option.map_eq_some'.mp h with ⟨rel, hfind, hm⟩
  refine ⟨rel, List.mem_of_find?_eq_some hfind, ?_, by rw [← hm], by rw [← hm]⟩
  have hp := List.find?_some (p := fun q => ruleAccepts conj q l r iteration) hfind
  simpa using hp

/-- Unpack `ruleAccepts` into the negation of each of the ten reject
conditions. -/
theorem ruleAccepts_iff (conj : String → String) (rel : Rule)
    (l r : Node) (iteration : Int) :
    ruleAccepts conj rel l r iteration = true ↔
      (!rel.left.isEmpty && !(rel.left.contains l.type)) = false ∧
      (!rel.right.isEmpty && !(rel.right.contains r.type)) = false ∧
      (decide (rel.delay ≠ -1) && decide (iteration ≤ rel.delay)) = false ∧
      (decide (rel.maxDistance ≠ -1) &&
        decide ((r.idx0 - l.idx1) - 1 > rel.maxDistance)) = false ∧
      (rel.direction == "<-" && r.label == some "ROOT") = false ∧
      (rel.direction == "->" && l.label == some "ROOT") = false ∧
      (rel.label == "NSUBJ" && rel.direction == "->" &&
        findBy.label "NSUBJ" r.left) = false ∧
      (rel.label == "NSUBJPASS" && rel.direction == "->" &&
        findBy.label "NSUBJPASS" r.left) = false ∧
      (!rel.leftTokens.isEmpty &&
        !(rel.leftTokens.contains (conj (deContract (l.tokens.headD ""))))) = false ∧
      (!rel.rightTokens.isEmpty &&
        !(rel.rightTokens.contains (conj (deContract (r.tokens.headD ""))))) = false := by
  simp only [ruleAccepts, Bool.not_eq_true', Bool.or_eq_false_iff]
  tauto

/-- An accepted `"<-"` rule implies the right node is not the root. -/
theorem ruleAccepts_root_r (conj : String → String) (rel : Rule)
    (l r : Node) (iteration : Int)
    (h : ruleAccepts conj rel l r iteration = true)
    (hd : rel.direction = "<-") : r.label ≠ some "ROOT" := by
  have h5 := ((ruleAccepts_iff conj rel l r iteration).mp h).2.2.2.2.1
  rw [hd] at h5
  simpa using h5

/-- An accepted `"->"` rule implies the left node is not the root. -/
theorem ruleAccepts_root_l (conj : String → String) (rel : Rule)
    (l r : Node) (iteration : Int)
    (h : ruleAccepts conj rel l r iteration = true)
    (hd : rel.direction = "->") : l.label ≠ some "ROOT" := by
  have h6 := ((ruleAccepts_iff conj rel l r iteration).mp h).2.2.2.2.2.1
  rw [hd] at h6
  simpa using h6

/-- An accepted `"->"` rule labeled `"NSUBJ"` implies the right node has
no `"NSUBJ"`-labeled left child yet. -/
theorem ruleAccepts_nsubj (conj : String → String) (rel : Rule)
    (l r : Node) (iteration : Int)
    (h : ruleAccepts conj rel l r iteration = true)
    (hl : rel.label = "NSUBJ") (hd : rel.direction = "->") :
    findBy.label "NSUBJ" r.left = false := by
  have h7 := ((ruleAccepts_iff conj rel l r iteration).mp h).2.2.2.2.2.2.1
  rw [hl, hd] at h7
  simpa using h7

/-- An accepted `"->"` rule labeled `"NSUBJPASS"` implies the right node
has no `"NSUBJPASS"`-labeled left child yet. -/
theorem ruleAccepts_nsubjpass (conj : String → String) (rel : Rule)
    (l r : Node) (iteration : Int)
    (h : ruleAccepts conj rel l r iteration = true)
    (hl : rel.label = "NSUBJPASS") (hd : rel.direction = "->") :
    findBy.label "NSUBJPASS" r.left = false := by
  have h8 := ((ruleAccepts_iff conj rel l r iteration).mp h).2.2.2.2.2.2.2.1
  rw [hl, hd] at h8
  simpa using h8

/-- An accepted distance-bounded rule implies the gap between the spans is
within the bound. -/
theorem ruleAccepts_dist (conj : String → String) (rel : Rule)
    (l r : Node) (iteration : Int)
    (h : ruleAccepts conj rel l r iteration = true)
    (hm : rel.maxDistance ≠ -1) :
    (r.idx0 - l.idx1) - 1 ≤ rel.maxDistance := by
  have h4 := ((ruleAccepts_iff conj rel l r iteration).mp h).2.2.2.1
  simp only [hm, not_true, decide_not, Bool.and_eq_false_iff, decide_eq_false_iff_not,
    not_not, decide_eq_true_eq, not_lt] at h4
  rcases h4 with h4 | h4
  · simp at h4
  · exact h4

/-! ### Preservation lemmas for the reduction pass -/

@[simp] theorem mergeStep_nil (conj : String → String) (rules : List Rule)
    (iteration : Int) (x : Node) :
    mergeStep conj rules iteration x [] = [x] := rfl

theorem mergeStep_none (conj : String → String) (rules : List Rule)
    (iteration : Int) (x z : Node) (zs : List Node)
    (h : matchNodes conj rules x z iteration = none) :
    mergeStep conj rules iteration x (z :: zs) = x :: z :: zs := by
  simp [mergeStep, h]

theorem mergeStep_left (conj : String → String) (rules : List Rule)
    (iteration : Int) (x z : Node) (zs : List Node) (m : MatchResult)
    (h : matchNodes conj rules x z iteration = some m)
    (hd : m.direction = "<-") :
    mergeStep conj rules iteration x (z :: zs) =
      x.pushRight (z.setLabel m.label) :: zs := by
  simp [mergeStep, h, hd]

theorem mergeStep_right (conj : String → String) (rules : List Rule)
    (iteration : Int) (x z : Node) (zs : List Node) (m : MatchResult)
    (h : matchNodes conj rules x z iteration = some m)
    (hd : m.direction = "->") :
    mergeStep conj rules iteration x (z :: zs) =
      z.pushLeft (x.setLabel m.label) :: zs := by
  simp [mergeStep, h, hd]

theorem mergeStep_other (conj : String → String) (rules : List Rule)
    (iteration : Int) (x z : Node) (zs : List Node) (m : MatchResult)
    (h : matchNodes conj rules x z iteration = some m)
    (hd1 : m.direction ≠ "<-") (hd2 : m.direction ≠ "->") :
    mergeStep conj rules iteration x (z :: zs) = x :: z :: zs := by
  simp [mergeStep, h, hd1, hd2]

/-- Every node of a merge-step result is the untouched incoming node, an
untouched node of the processed suffix, or one of the two merged forms. -/
theorem mergeStep_cases (conj : String → String) (rules : List Rule)
    (iteration : Int) (x z : Node) (zs : List Node) :
    mergeStep conj rules iteration x (z :: zs) = x :: z :: zs ∨
      ∃ m : MatchResult, matchNodes conj rules x z iteration = some m ∧
        ((m.direction = "<-" ∧
          mergeStep conj rules iteration x (z :: zs) =
            x.pushRight (z.setLabel m.label) :: zs) ∨
        (m.direction = "->" ∧
          mergeStep conj rules iteration x (z :: zs) =
            z.pushLeft (x.setLabel m.label) :: zs)) := by
  rcases hm : matchNodes conj rules x z iteration with _ | m
  · exact Or.inl (mergeStep_none conj rules iteration x z zs hm)
  · by_cases h1 : m.direction = "<-"
    · exact Or.inr ⟨m, rfl, Or.inl ⟨h1,
        mergeStep_left conj rules iteration x z zs m hm h1⟩⟩
    · by_cases h2 : m.direction = "->"
      · exact Or.inr ⟨m, rfl, Or.inr ⟨h2,
          mergeStep_right conj rules iteration x z zs m hm h2⟩⟩
      · exact Or.inl (mergeStep_other conj rules iteration x z zs m hm h1 h2)

/-- The pass never empties a nonempty sequence. -/
theorem reducePass_ne_nil (conj : String → String) (rules : List Rule)
    (iteration : Int) :
    ∀ ns : List Node, ns ≠ [] → reducePass conj rules iteration ns ≠ [] := by
  intro ns hne
  match ns with
  | [x] => simp [reducePass]
  | x :: y :: rest =>
    rw [reducePass]
    rcases hq : reducePass conj rules iteration (y :: rest) with _ | ⟨z, zs⟩
    · simp
    · rcases mergeStep_cases conj rules iteration x z zs with heq | ⟨m, _, hc⟩
      · simp [heq]
      · rcases hc with ⟨_, heq⟩ | ⟨_, heq⟩ <;> simp [heq]

/-- A pass preserves root-free child lists, provided no rule of the table
is labeled `"ROOT"`. -/
theorem reducePass_rootFree (conj : String → String) (rules : List Rule)
    (iteration : Int) (hrules : ∀ rel ∈ rules, rel.label ≠ "ROOT") :
    ∀ ns : List Node, (∀ n ∈ ns, n.rootFree = true) →
      ∀ n ∈ reducePass conj rules iteration ns, n.rootFree = true := by
  intro ns
  induction ns with
  | nil => intro _ n hn; simp [reducePass] at hn
  | cons x tail ih =>
    intro H
    match tail with
    | [] =>
      intro n hn
      simp only [reducePass, List.mem_singleton] at hn
      exact hn ▸ H x (List.mem_singleton.mpr rfl)
    | y :: rest =>
      have Hx : x.rootFree = true := H x (List.mem_cons_self _ _)
      have Htail : ∀ n ∈ y :: rest, n.rootFree = true :=
        fun n hn => H n (List.mem_cons_of_mem _ hn)
      have Hres := ih Htail
      rw [reducePass]
      rcases hq : reducePass conj rules iteration (y :: rest) with _ | ⟨z, zs⟩
      · intro n hn
        simp only [mergeStep_nil, List.mem_singleton] at hn
        exact hn ▸ Hx
      · rw [hq] at Hres
        have Hz : z.rootFree = true := Hres z (List.mem_cons_self _ _)
        have Hzs : ∀ n ∈ zs, n.rootFree = true :=
          fun n hn => Hres n (List.mem_cons_of_mem _ hn)
        rcases mergeStep_cases conj rules iteration x z zs with heq | ⟨m, hm, hc⟩
        · rw [heq]
          intro n hn
          rcases List.mem_cons.mp hn with rfl | hn
          · exact Hx
          · exact Hres n hn
        · rcases matchNodes_some conj rules x z iteration m hm with
            ⟨rel, hrel, _, _, hlab⟩
          have hlabne : m.label ≠ "ROOT" := hlab ▸ hrules rel hrel
          have hbeq : (some m.label == some "ROOT") = false := by
            simp [hlabne]
          rcases hc with ⟨_, heq⟩ | ⟨_, heq⟩
          · rw [heq]
            intro n hn
            rcases List.mem_cons.mp hn with rfl | hn
            · simp [Node.rootFree_pushRight, Hx, hbeq, Hz]
            · exact Hzs n hn
          · rw [heq]
            intro n hn
            rcases List.mem_cons.mp hn with rfl | hn
            · simp [Node.rootFree_pushLeft, Hz, hbeq, Hx]
            · exact Hzs n hn

/-- The whole reduction loop preserves root-free child lists. -/
theorem buildRelLoop_rootFree (conj : String → String) (rules : List Rule)
    (hrules : ∀ rel ∈ rules, rel.label ≠ "ROOT") :
    ∀ (fuel : Nat) (iteration : Int) (ns : List Node),
      (∀ n ∈ ns, n.rootFree = true) →
      ∀ n ∈ buildRelLoop conj rules fuel iteration ns, n.rootFree = true := by
  intro fuel
  induction fuel with
  | zero => intro iteration ns H; simpa [buildRelLoop] using H
  | succ fuel ih =>
    intro iteration ns H
    rw [buildRelLoop]
    by_cases hl : ns.length > 1
    · simp only [hl, if_true]
      exact ih (iteration + 1) _
        (reducePass_rootFree conj rules iteration hrules ns H)
    · simpa [hl] using H

/-! ### Concrete fixtures for witnesses and counterexamples -/

/-- A wildcard left-absorbs-right subject rule. -/
def wRule : Rule := ⟨[], [], [], [], "->", "NSUBJ", -1, -1⟩

/-- A flat noun-phrase node spanning positions 0–2. -/
def wN0 : Node := .mk "NP" ["DT", "NN"] ["the", "cat"] 0 2 none [] []

/-- A flat root-marked verb-phrase node spanning positions 2–3. -/
def wN1 : Node := .mk "VP" ["VBZ"] ["sits"] 2 3 (some "ROOT") [] []

/-- A rule table whose only rule bears the label `"ROOT"` itself. -/
def cxRule : Rule := ⟨[], [], [], [], "<-", "ROOT", -1, -1⟩

/-- A flat node spanning positions 0–1. -/
def cxN0 : Node := .mk "NP" ["NN"] ["a"] 0 1 none [] []

/-- A flat node spanning positions 1–2. -/
def cxN1 : Node := .mk "VB" ["VB"] ["b"] 1 2 none [] []

/-! ### C1 -/

/-- C1 (amended): against any rule table, the matcher never returns a
`"<-"` match whose right node is labeled `"ROOT"` nor a `"->"` match whose
left node is labeled `"ROOT"`; and — provided no rule of the table itself
bears the label `"ROOT"` and the input nodes' child lists are root-free
(e.g. flat tagger output) — after the reduction engine completes, no node
labeled `"ROOT"` appears in any reachable node's `left` or `right` child
list. -/
theorem root_never_absorbed (conj : String → String) (rules : List Rule)
    (ns : List Node) (limit : Int)
    (hrules : ∀ rel ∈ rules, rel.label ≠ "ROOT")
    (hns : ∀ n ∈ ns, n.rootFree = true) :
    (∀ (l r : Node) (iteration : Int) (m : MatchResult),
        matchNodes conj rules l r iteration = some m →
          (m.direction = "<-" → r.label ≠ some "ROOT") ∧
          (m.direction = "->" → l.label ≠ some "ROOT")) ∧
    ∀ n ∈ buildRelationships conj rules ns limit, n.rootFree = true := by
  constructor
  · intro l r iteration m hm
    rcases matchNodes_some conj rules l r iteration m hm with
      ⟨rel, _, hacc, hdir, _⟩
    constructor
    · intro hd
      exact ruleAccepts_root_r conj rel l r iteration hacc (hdir.symm.trans hd)
    · intro hd
      exact ruleAccepts_root_l conj rel l r iteration hacc (hdir.symm.trans hd)
  · exact buildRelLoop_rootFree conj rules hrules limit.toNat 0 ns hns

/-- Witness for C1 at a concrete flat two-node input and a concrete
subject rule. -/
theorem root_never_absorbed_witness :
    (buildRelationships (fun s => s) [wRule] [wN0, wN1] 3).all
      Node.rootFree = true := by
  have h := (root_never_absorbed (fun s => s) [wRule] [wN0, wN1] 3
    (by decide) (by decide)).2
  exact List.all_eq_true.mpr fun n hn => h n hn

/-- Counterexample to C1 as literally stated (universal over rule tables):
with a table whose only rule is labeled `"ROOT"`, the absorbed right node
is relabeled `"ROOT"` as it is pushed into the left node's `right` child
list, so a root-labeled node does appear in another node's child list
after reduction. -/
theorem root_never_absorbed_counterexample :
    (((buildRelationships (fun s => s) [cxRule] [cxN0, cxN1] 1).headD
        cxN0).right.headD cxN0).label = some "ROOT" ∧
    ((buildRelationships (fun s => s) [cxRule] [cxN0, cxN1] 1).headD
        cxN0).rootFree = false := by
  decide

/-! ### C2 -/

/-- C2: the rule matcher scans the rule table in stored order and returns
the direction and label of the first rule all of whose conditions pass
(`ruleAccepts` is the conjunction of the ten conditions), or no match when
no rule passes; being the image of `List.find?`, it never considers more
than one satisfied rule. -/
theorem first_match_wins (conj : String → String) (rules : List Rule)
    (l r : Node) (iteration : Int) :
    matchNodes conj rules l r iteration =
      (rules.find? fun rel => ruleAccepts conj rel l r iteration).map
        fun rel => ⟨rel.direction, rel.label⟩ :=
  matchNodes_eq_find conj rules l r iteration

/-! ### C6 -/

/-- A wildcard rule with `maxDistance = 0`. -/
def dRule : Rule := ⟨[], [], [], [], "<-", "X", -1, 0⟩

/-- A wildcard rule with `maxDistance = 5`. -/
def eRule : Rule := ⟨[], [], [], [], "<-", "X", -1, 5⟩

/-- A flat node spanning positions 0–1. -/
def dL : Node := .mk "NP" ["NN"] ["a"] 0 1 none [] []

/-- A flat node spanning positions 3–4. -/
def dR : Node := .mk "VB" ["VB"] ["b"] 3 4 none [] []

/-- C6: a rule with `maxDistance ≠ -1` is rejected whenever the exclusive
gap `right.index[0] - left.index[1] - 1` exceeds `maxDistance`; in
particular a `maxDistance = 0` rule never matches a left node spanning
0–1 against a right node spanning 3–4, whatever its other fields. -/
theorem distance_condition (conj : String → String) (rel : Rule)
    (l r : Node) (iteration : Int) :
    (ruleAccepts conj rel l r iteration = true → rel.maxDistance ≠ -1 →
      (r.idx0 - l.idx1) - 1 ≤ rel.maxDistance) ∧
    (rel.maxDistance = 0 → l.idx0 = 0 → l.idx1 = 1 → r.idx0 = 3 →
      r.idx1 = 4 →
      ruleAccepts conj rel l r iteration = false ∧
      matchNodes conj [rel] l r iteration = none) := by
  constructor
  · intro h hm
    exact ruleAccepts_dist conj rel l r iteration h hm
  · intro hmd _ hl1 hr0 _
    have hfalse : ruleAccepts conj rel l r iteration = false := by
      simp only [ruleAccepts, hmd, hl1, hr0, Bool.not_eq_true']
      norm_num
    refine ⟨hfalse, ?_⟩
    rw [matchNodes_cons, hfalse]
    simp [matchNodes]

/-- Witness for C6: the concrete Scenario-D pair is rejected by a concrete
`maxDistance = 0` rule, and an accepted `maxDistance = 5` rule on the same
pair respects the gap bound. -/
theorem distance_condition_witness :
    (ruleAccepts (fun s => s) dRule dL dR 0 = false ∧
      matchNodes (fun s => s) [dRule] dL dR 0 = none) ∧
    (dR.idx0 - dL.idx1) - 1 ≤ eRule.maxDistance := by
  constructor
  · exact (distance_condition (fun s => s) dRule dL dR 0).2
      (by decide) (by decide) (by decide) (by decide) (by decide)
  · exact (distance_condition (fun s => s) eRule dL dR 0).1
      (by decide) (by decide)

/-! ### Iteration-counting view of the reduction loop -/

/-- Exactly `k` passes, starting at iteration number `iteration`. -/
def iteratePasses (conj : String → String) (rules : List Rule) :
    Nat → Int → List Node → List Node
  | 0, _, ns => ns
  | k + 1, iteration, ns =>
    iteratePasses conj rules k (iteration + 1) (reducePass conj rules iteration ns)

/-- The reduction loop performs some number of passes bounded by its
fuel. -/
theorem buildRelLoop_iterate (conj : String → String) (rules : List Rule) :
    ∀ (fuel : Nat) (iteration : Int) (ns : List Node),
      ∃ k ≤ fuel, buildRelLoop conj rules fuel iteration ns =
        iteratePasses conj rules k iteration ns := by
  intro fuel
  induction fuel with
  | zero => intro iteration ns; exact ⟨0, Nat.le_refl 0, rfl⟩
  | succ fuel ih =>
    intro iteration ns
    rw [buildRelLoop]
    by_cases hl : ns.length > 1
    · simp only [hl, if_true]
      rcases ih (iteration + 1) (reducePass conj rules iteration ns) with
        ⟨k, hk, heq⟩
      exact ⟨k + 1, Nat.succ_le_succ hk, by rw [iteratePasses]; exact heq⟩
    · exact ⟨0, Nat.zero_le _, by simp [hl, iteratePasses]⟩

@[simp] theorem Node.clearLabel_setLabel (n : Node) (s : String) :
    (n.setLabel s).clearLabel = n.clearLabel := by cases n; rfl

/-- The root identifier changes labels only: erasing every label gives
back the input. -/
theorem identifyRoot_clearLabel (conj : String → String) :
    ∀ ns : List Node,
      (identifyRoot conj ns).map Node.clearLabel = ns.map Node.clearLabel := by
  intro ns
  induction ns with
  | nil => rfl
  | cons x rest ih =>
    rw [identifyRoot]
    by_cases h : skipNode conj x rest[0]? rest[1]? rest[2]? = true
    · simp only [h, if_true, List.map_cons, ih]
    · simp only [Bool.not_eq_true] at h
      simp [h]

/-! ### C7 -/

/-- C7: the reduction engine is exactly some number `k ≤ cap` of passes
over the sequence; with cap 0 it returns the input sequence itself, so the
entry point with cap 0 returns the root-identified sequence, which differs
from the input at most in labels (erasing labels recovers the input). -/
theorem termination_cap (conj : String → String) (rules : List Rule)
    (ns : List Node) (limit : Int) :
    (∃ k ≤ limit.toNat, buildRelationships conj rules ns limit =
      iteratePasses conj rules k 0 ns) ∧
    buildRelationships conj rules ns 0 = ns ∧
    relate conj rules ns 0 = identifyRoot conj ns ∧
    (identifyRoot conj ns).map Node.clearLabel = ns.map Node.clearLabel :=
  ⟨buildRelLoop_iterate conj rules limit.toNat 0 ns, rfl, rfl,
    identifyRoot_clearLabel conj ns⟩

/-! ### C8 -/

/-- C8: the entry point is total on malformed input: an empty node
sequence is returned immediately unchanged for every recursion limit, and
a non-positive recursion limit performs root identification only, skipping
the reduction loop. -/
theorem malformed_input (conj : String → String) (rules : List Rule)
    (limit : Int) (ns : List Node) :
    relate conj rules [] limit = [] ∧
    (limit ≤ 0 → relate conj rules ns limit = identifyRoot conj ns) := by
  constructor
  · have hnil : ∀ (fuel : Nat) (iteration : Int),
        buildRelLoop conj rules fuel iteration ([] : List Node) = [] := by
      intro fuel iteration
      cases fuel with
      | zero => rfl
      | succ fuel => rw [buildRelLoop]; simp
    simpa [relate, identifyRoot, buildRelationships] using
      hnil limit.toNat 0
  · intro hle
    have h0 : limit.toNat = 0 := Int.toNat_of_nonpos hle
    simp [relate, buildRelationships, h0, buildRelLoop]

/-- Witness for C8 at a concrete one-node input and recursion limit -2. -/
theorem malformed_input_witness :
    relate (fun s => s) [wRule] [wN0] (-2) = identifyRoot (fun s => s) [wN0] :=
  (malformed_input (fun s => s) [wRule] (-2) [wN0]).2 (by decide)

/-! ### Single-subject bookkeeping -/

@[simp] theorem countLabel_nil (lb : String) : countLabel lb [] = 0 := rfl

theorem countLabel_append (lb : String) (a b : List Node) :
    countLabel lb (a ++ b) = countLabel lb a + countLabel lb b := by
  simp [countLabel, List.filter_append]

theorem countLabel_singleton (lb : String) (c : Node) :
    countLabel lb [c] = if c.label == some lb then 1 else 0 := by
  by_cases h : (c.label == some lb) = true
  · simp [countLabel, List.filter, h]
  · simp only [Bool.not_eq_true] at h
    simp [countLabel, List.filter, h]

theorem countLabel_eq_zero (lb : String) (ns : List Node)
    (h : findBy.label lb ns = false) : countLabel lb ns = 0 := by
  simp only [findBy.label, List.any_eq_false] at h
  simp only [countLabel, List.length_eq_zero, List.filter_eq_nil_iff]
  exact h

@[simp] theorem Node.subjOkList_nil : Node.subjOkList [] = true := rfl

@[simp] theorem Node.subjOkList_cons (c : Node) (cs : List Node) :
    Node.subjOkList (c :: cs) = (c.subjOk && Node.subjOkList cs) := rfl

theorem Node.subjOkList_append (a b : List Node) :
    Node.subjOkList (a ++ b) = (Node.subjOkList a && Node.subjOkList b) := by
  induction a with
  | nil => simp
  | cons c cs ih => simp [ih, Bool.and_assoc]

theorem Node.subjOk_def (n : Node) :
    n.subjOk = (decide (countLabel "NSUBJ" n.left ≤ 1) &&
      decide (countLabel "NSUBJPASS" n.left ≤ 1) &&
      Node.subjOkList n.left && Node.subjOkList n.right) := by
  cases n; rfl

@[simp] theorem Node.subjOk_setLabel (n : Node) (s : String) :
    (n.setLabel s).subjOk = n.subjOk := by cases n; rfl

theorem Node.subjOk_pushRight (n c : Node) :
    (n.pushRight c).subjOk = (n.subjOk && c.subjOk) := by
  cases n
  simp [Node.subjOk_def, Node.pushRight, Node.subjOkList_append, Node.subjOk,
    Node.left, Node.right, Bool.and_assoc]

/-- A merge step preserves the single-subject invariant of every node it
produces. -/
theorem mergeStep_subjOk (conj : String → String) (rules : List Rule)
    (iteration : Int) (x z : Node) (zs : List Node)
    (hx : x.subjOk = true) (hz : z.subjOk = true)
    (hzs : ∀ n ∈ zs, n.subjOk = true) :
    ∀ n ∈ mergeStep conj rules iteration x (z :: zs), n.subjOk = true := by
  rcases mergeStep_cases conj rules iteration x z zs with heq | ⟨m, hm, hc⟩
  · rw [heq]
    intro n hn
    rcases List.mem_cons.mp hn with rfl | hn
    · exact hx
    rcases List.mem_cons.mp hn with rfl | hn
    · exact hz
    · exact hzs n hn
  · rcases matchNodes_some conj rules x z iteration m hm with
      ⟨rel, _, hacc, hdir, hlab⟩
    rcases hc with ⟨_, heq⟩ | ⟨hd, heq⟩
    · rw [heq]
      intro n hn
      rcases List.mem_cons.mp hn with rfl | hn
      · simp [Node.subjOk_pushRight, hx, hz]
      · exact hzs n hn
    · rw [heq]
      intro n hn
      rcases List.mem_cons.mp hn with rfl | hn
      · have hrdir : rel.direction = "->" := hdir.symm.trans hd
        rw [Node.subjOk_def] at hz
        simp only [Bool.and_eq_true, decide_eq_true_eq] at hz
        rw [Node.subjOk_def]
        simp only [Node.left_pushLeft, Node.right_pushLeft,
          countLabel_append, countLabel_singleton, Node.subjOkList_append,
          Node.subjOkList_cons, Node.subjOkList_nil, Node.subjOk_setLabel,
          Node.label_setLabel, Bool.and_eq_true, decide_eq_true_eq]
        refine ⟨⟨⟨?_, ?_⟩, by simp [hz.1.2, hx]⟩, hz.2⟩
        · by_cases hN : m.label = "NSUBJ"
          · have hcz : countLabel "NSUBJ" z.left = 0 :=
              countLabel_eq_zero _ _
                (ruleAccepts_nsubj conj rel x z iteration hacc
                  (hlab.symm.trans hN) hrdir)
            simp [hcz, hN]
          · have hb : (some m.label == some "NSUBJ") = false := by simp [hN]
            simp [hb]
            omega
        · by_cases hP : m.label = "NSUBJPASS"
          · have hcz : countLabel "NSUBJPASS" z.left = 0 :=
              countLabel_eq_zero _ _
                (ruleAccepts_nsubjpass conj rel x z iteration hacc
                  (hlab.symm.trans hP) hrdir)
            simp [hcz, hP]
          · have hb : (some m.label == some "NSUBJPASS") = false := by simp [hP]
            simp [hb]
            omega
      · exact hzs n hn

/-- A pass preserves the single-subject invariant. -/
theorem reducePass_subjOk (conj : String → String) (rules : List Rule)
    (iteration : Int) :
    ∀ ns : List Node, (∀ n ∈ ns, n.subjOk = true) →
      ∀ n ∈ reducePass conj rules iteration ns, n.subjOk = true := by
  intro ns
  induction ns with
  | nil => intro _ n hn; simp [reducePass] at hn
  | cons x tail ih =>
    intro H
    match tail with
    | [] =>
      intro n hn
      simp only [reducePass, List.mem_singleton] at hn
      exact hn ▸ H x (List.mem_singleton.mpr rfl)
    | y :: rest =>
      have Hx : x.subjOk = true := H x (List.mem_cons_self _ _)
      have Htail : ∀ n ∈ y :: rest, n.subjOk = true :=
        fun n hn => H n (List.mem_cons_of_mem _ hn)
      have Hres := ih Htail
      rw [reducePass]
      rcases hq : reducePass conj rules iteration (y :: rest) with _ | ⟨z, zs⟩
      · intro n hn
        simp only [mergeStep_nil, List.mem_singleton] at hn
        exact hn ▸ Hx
      · rw [hq] at Hres
        exact mergeStep_subjOk conj rules iteration x z zs Hx
          (Hres z (List.mem_cons_self _ _))
          (fun n hn => Hres n (List.mem_cons_of_mem _ hn))

/-- The whole reduction loop preserves the single-subject invariant. -/
theorem buildRelLoop_subjOk (conj : String → String) (rules : List Rule) :
    ∀ (fuel : Nat) (iteration : Int) (ns : List Node),
      (∀ n ∈ ns, n.subjOk = true) →
      ∀ n ∈ buildRelLoop conj rules fuel iteration ns, n.subjOk = true := by
  intro fuel
  induction fuel with
  | zero => intro iteration ns H; simpa [buildRelLoop] using H
  | succ fuel ih =>
    intro iteration ns H
    rw [buildRelLoop]
    by_cases hl : ns.length > 1
    · simp only [hl, if_true]
      exact ih (iteration + 1) _ (reducePass_subjOk conj rules iteration ns H)
    · simpa [hl] using H

/-! ### C5 -/

/-- A second flat noun-phrase node, spanning positions 4–5. -/
def wN2 : Node := .mk "NP" ["NN"] ["dogs"] 4 5 none [] []

/-- C5: the matcher rejects a left-absorbs-right rule labeled `"NSUBJ"`
(resp. `"NSUBJPASS"`) when the right node's left children already hold
that label; consequently — whenever the input nodes already satisfy the
single-subject invariant, as flat tagger output trivially does — every
node reachable in the final result has at most one `"NSUBJ"`-labeled and
at most one `"NSUBJPASS"`-labeled left child. -/
theorem single_subject (conj : String → String) (rules : List Rule)
    (ns : List Node) (limit : Int)
    (hns : ∀ n ∈ ns, n.subjOk = true) :
    (∀ (l r : Node) (iteration : Int) (m : MatchResult),
        matchNodes conj rules l r iteration = some m → m.direction = "->" →
          (m.label = "NSUBJ" → findBy.label "NSUBJ" r.left = false) ∧
          (m.label = "NSUBJPASS" → findBy.label "NSUBJPASS" r.left = false)) ∧
    ∀ n ∈ buildRelationships conj rules ns limit, n.subjOk = true := by
  constructor
  · intro l r iteration m hm hd
    rcases matchNodes_some conj rules l r iteration m hm with
      ⟨rel, _, hacc, hdir, hlab⟩
    constructor
    · intro hN
      exact ruleAccepts_nsubj conj rel l r iteration hacc
        (hlab.symm.trans hN) (hdir.symm.trans hd)
    · intro hP
      exact ruleAccepts_nsubjpass conj rel l r iteration hacc
        (hlab.symm.trans hP) (hdir.symm.trans hd)
  · exact buildRelLoop_subjOk conj rules limit.toNat 0 ns hns

/-- Witness for C5: a three-node sentence with two candidate subjects and
a wildcard subject rule ends with every node satisfying the
single-subject invariant. -/
theorem single_subject_witness :
    (buildRelationships (fun s => s) [wRule] [wN0, wN2, wN1] 3).all
      Node.subjOk = true := by
  have h := (single_subject (fun s => s) [wRule] [wN0, wN2, wN1] 3
    (by decide)).2
  exact List.all_eq_true.mpr fun n hn => h n hn

/-! ### Root-count bookkeeping for C4 -/

@[simp] theorem Node.rootCountList_nil : Node.rootCountList [] = 0 := rfl

@[simp] theorem Node.rootCountList_cons (c : Node) (cs : List Node) :
    Node.rootCountList (c :: cs) = c.rootCount + Node.rootCountList cs := rfl

theorem Node.rootCountList_append (a b : List Node) :
    Node.rootCountList (a ++ b) =
      Node.rootCountList a + Node.rootCountList b := by
  induction a with
  | nil => simp
  | cons c cs ih => simp [ih]; omega

theorem Node.rootCount_def (n : Node) :
    n.rootCount = (if n.label = some "ROOT" then 1 else 0) +
      Node.rootCountList n.left + Node.rootCountList n.right := by
  cases n; rfl

theorem Node.rootCount_pushRight (n c : Node) :
    (n.pushRight c).rootCount = n.rootCount + c.rootCount := by
  cases n
  simp [Node.rootCount_def, Node.pushRight, Node.rootCountList_append,
    Node.label, Node.left, Node.right]
  omega

theorem Node.rootCount_pushLeft (n c : Node) :
    (n.pushLeft c).rootCount = n.rootCount + c.rootCount := by
  cases n
  simp [Node.rootCount_def, Node.pushLeft, Node.rootCountList_append,
    Node.label, Node.left, Node.right]
  omega

/-- Relabeling a non-root node with a non-root label keeps its root count
(namely, the count of its subtree). -/
theorem Node.rootCount_setLabel_of (n : Node) (s : String)
    (hn : n.label ≠ some "ROOT") (hs : s ≠ "ROOT") :
    (n.setLabel s).rootCount = n.rootCount := by
  rw [Node.rootCount_def, Node.rootCount_def, Node.label_setLabel,
    Node.left_setLabel, Node.right_setLabel,
    if_neg (show ¬some s = some "ROOT" by simpa using hs), if_neg hn]

/-- A merge step preserves the total number of `"ROOT"` labels in the
forest, provided no rule of the table is labeled `"ROOT"`. -/
theorem mergeStep_rootCount (conj : String → String) (rules : List Rule)
    (iteration : Int) (hrules : ∀ rel ∈ rules, rel.label ≠ "ROOT")
    (x z : Node) (zs : List Node) :
    Node.rootCountList (mergeStep conj rules iteration x (z :: zs)) =
      x.rootCount + Node.rootCountList (z :: zs) := by
  rcases mergeStep_cases conj rules iteration x z zs with heq | ⟨m, hm, hc⟩
  · rw [heq]; simp
  · rcases matchNodes_some conj rules x z iteration m hm with
      ⟨rel, hrel, hacc, hdir, hlab⟩
    have hlabne : m.label ≠ "ROOT" := hlab ▸ hrules rel hrel
    rcases hc with ⟨hd, heq⟩ | ⟨hd, heq⟩
    · have hz : z.label ≠ some "ROOT" :=
        ruleAccepts_root_r conj rel x z iteration hacc (hdir.symm.trans hd)
      rw [heq]
      simp [Node.rootCount_pushRight, Node.rootCount_setLabel_of z m.label hz hlabne]
      omega
    · have hx : x.label ≠ some "ROOT" :=
        ruleAccepts_root_l conj rel x z iteration hacc (hdir.symm.trans hd)
      rw [heq]
      simp [Node.rootCount_pushLeft, Node.rootCount_setLabel_of x m.label hx hlabne]
      omega

/-- A pass preserves the total number of `"ROOT"` labels. -/
theorem reducePass_rootCount (conj : String → String) (rules : List Rule)
    (iteration : Int) (hrules : ∀ rel ∈ rules, rel.label ≠ "ROOT") :
    ∀ ns : List Node,
      Node.rootCountList (reducePass conj rules iteration ns) =
        Node.rootCountList ns := by
  intro ns
  induction ns with
  | nil => rfl
  | cons x tail ih =>
    match tail with
    | [] => rfl
    | y :: rest =>
      rw [reducePass]
      rcases hq : reducePass conj rules iteration (y :: rest) with _ | ⟨z, zs⟩
      · exact absurd hq (reducePass_ne_nil conj rules iteration _ (by simp))
      · rw [hq] at ih
        rw [mergeStep_rootCount conj rules iteration hrules x z zs, ih]
        simp

/-- The reduction loop preserves the total number of `"ROOT"` labels. -/
theorem buildRelLoop_rootCount (conj : String → String) (rules : List Rule)
    (hrules : ∀ rel ∈ rules, rel.label ≠ "ROOT") :
    ∀ (fuel : Nat) (iteration : Int) (ns : List Node),
      Node.rootCountList (buildRelLoop conj rules fuel iteration ns) =
        Node.rootCountList ns := by
  intro fuel
  induction fuel with
  | zero => intro iteration ns; rfl
  | succ fuel ih =>
    intro iteration ns
    rw [buildRelLoop]
    by_cases hl : ns.length > 1
    · simp only [hl, if_true]
      rw [ih (iteration + 1) (reducePass conj rules iteration ns),
        reducePass_rootCount conj rules iteration hrules ns]
    · simp [hl]

/-- A flat unlabeled node has root count zero. -/
theorem Node.rootCount_flat (n : Node) (h1 : n.label = none)
    (h2 : n.left = []) (h3 : n.right = []) : n.rootCount = 0 := by
  rw [Node.rootCount_def, h1, h2, h3]
  simp

/-- A list of flat unlabeled nodes has root count zero. -/
theorem Node.rootCountList_flat (ns : List Node)
    (h : ∀ n ∈ ns, n.label = none ∧ n.left = [] ∧ n.right = []) :
    Node.rootCountList ns = 0 := by
  induction ns with
  | nil => rfl
  | cons c cs ih =>
    rcases h c (List.mem_cons_self _ _) with ⟨h1, h2, h3⟩
    simp [Node.rootCount_flat c h1 h2 h3,
      ih fun n hn => h n (List.mem_cons_of_mem _ hn)]

/-- On flat unlabeled input, the root identifier yields a total root count
of at most one. -/
theorem identifyRoot_rootCount (conj : String → String) :
    ∀ ns : List Node,
      (∀ n ∈ ns, n.label = none ∧ n.left = [] ∧ n.right = []) →
      Node.rootCountList (identifyRoot conj ns) ≤ 1 := by
  intro ns
  induction ns with
  | nil => intro _; simp [identifyRoot]
  | cons x rest ih =>
    intro h
    rcases h x (List.mem_cons_self _ _) with ⟨h1, h2, h3⟩
    have hrest := fun n hn => h n (List.mem_cons_of_mem _ hn)
    rw [identifyRoot]
    by_cases hs : skipNode conj x rest[0]? rest[1]? rest[2]? = true
    · rw [if_pos hs, Node.rootCountList_cons, Node.rootCount_flat x h1 h2 h3]
      simpa using ih hrest
    · rw [if_neg hs, Node.rootCountList_cons,
        Node.rootCountList_flat rest hrest, Node.rootCount_def,
        Node.label_setLabel, Node.left_setLabel, Node.right_setLabel, h2, h3]
      simp

/-! ### C4 -/

/-- A modal-first verb node (Scenario B's `will`). -/
def bN0 : Node := .mk "VB" ["MD"] ["will"] 0 1 none [] []

/-- A base-verb node (Scenario B's `run`). -/
def bN1 : Node := .mk "VB" ["VB"] ["run"] 1 2 none [] []

/-- C4: on flat unlabeled input the root identifier leaves at most one
`"ROOT"` label in the sequence, and — when no rule of the table bears the
root label — the reduction engine preserves the total number of `"ROOT"`
labels exactly (it neither assigns the root label anew nor overwrites the
marked node's label), so the completed pipeline also holds at most one
root. -/
theorem at_most_one_root (conj : String → String) (rules : List Rule)
    (ns : List Node) (limit : Int)
    (h1 : ∀ n ∈ ns, n.label = none ∧ n.left = [] ∧ n.right = [])
    (h2 : ∀ rel ∈ rules, rel.label ≠ "ROOT") :
    Node.rootCountList (identifyRoot conj ns) ≤ 1 ∧
    Node.rootCountList
        (buildRelationships conj rules (identifyRoot conj ns) limit) =
      Node.rootCountList (identifyRoot conj ns) ∧
    Node.rootCountList (relate conj rules ns limit) ≤ 1 := by
  have ha := identifyRoot_rootCount conj ns h1
  have hb := buildRelLoop_rootCount conj rules h2 limit.toNat 0
    (identifyRoot conj ns)
  refine ⟨ha, hb, ?_⟩
  show Node.rootCountList
    (buildRelLoop conj rules limit.toNat 0 (identifyRoot conj ns)) ≤ 1
  rw [hb]
  exact ha

/-- Witness for C4 on Scenario B's `will run` with a concrete subject
rule. -/
theorem at_most_one_root_witness :
    Node.rootCountList (relate (fun s => s) [wRule] [bN0, bN1] 3) ≤ 1 :=
  (at_most_one_root (fun s => s) [wRule] [bN0, bN1] 3
    (by
      intro n hn
      rcases List.mem_cons.mp hn with rfl | hn
      · exact ⟨rfl, rfl, rfl⟩
      rcases List.mem_cons.mp hn with rfl | hn
      · exact ⟨rfl, rfl, rfl⟩
      · exact absurd hn (List.not_mem_nil n))
    (by decide)).2.2

/-! ### C3 -/

/-- A candidate verb whose own first token is the auxiliary lemma `will`,
not at sentence start. -/
def cNode : Node := .mk "VB" ["MD"] ["will"] 1 2 none [] []

/-- The next node: a noun phrase whose first token is not an auxiliary
lemma. -/
def cN1 : Node := .mk "NP" ["NN"] ["ice"] 2 3 none [] []

/-- The node two positions ahead: a candidate verb. -/
def cN2 : Node := .mk "VB" ["VB"] ["go"] 3 4 none [] []

/-- C3 (amended): in the lookahead-pattern-5 configuration (candidate
verb, possible-auxiliary first tag, next node not a candidate verb, next
node's first tag not an adverb, span not starting at position 0, a node
two positions ahead), the candidate is skipped as an auxiliary exactly
when the NEXT node's first token — not the candidate's own — canonicalized
to present tense via the Conjugator after de-contraction, is one of the
auxiliary lemmas and the node two positions ahead is a candidate verb. -/
theorem aux_pattern_five (conj : String → String) (node n1 n2 : Node)
    (nx3 : Option Node)
    (h1 : vbs.contains node.type = true)
    (h2 : pa.contains (node.tags.headD "") = true)
    (h3 : vbs.contains n1.type = false)
    (h4 : n1.tags.headD "" ≠ "RB")
    (h5 : node.idx0 ≠ 0) :
    skipNode conj node (some n1) (some n2) nx3 =
      (oe.contains (conj (deContract (n1.tokens.headD ""))) &&
        vbs.contains n2.type) := by
  have h1m : node.type ∈ vbs := by simpa using h1
  have h2m : node.tags.head?.getD "" ∈ pa := by simpa using h2
  have h3m : n1.type ∉ vbs := by simpa using h3
  have h4m : ¬n1.tags.head?.getD "" = "RB" := by simpa using h4
  simp only [skipNode]
  rw [if_neg (by simp [h1m])]
  rw [if_neg (by simp [h2m])]
  rw [if_neg (by simp [h3m])]
  rw [if_neg (by simp [h4m])]
  rw [if_neg (by simp [h5])]

/-- Witness for C3's amended pattern: with the next node's first token
`will`, the candidate is skipped. -/
theorem aux_pattern_five_witness :
    skipNode (fun s => s) cNode
        (some (cN1.setTokens ["will"])) (some cN2) none =
      (oe.contains ((fun (s : String) => s)
          (deContract ((cN1.setTokens ["will"]).tokens.headD ""))) &&
        vbs.contains cN2.type) :=
  aux_pattern_five (fun s => s) cNode (cN1.setTokens ["will"]) cN2 none
    (by decide) (by decide) (by decide) (by decide) (by decide)

/-- Counterexample to C3 as stated: the candidate's OWN first token is the
auxiliary lemma `will` and the node two positions ahead is a candidate
verb, yet the candidate is not skipped — the root identifier marks it as
the root (the source tests the NEXT node's first token, `nx1.tokens[0]`,
not the candidate's own). -/
theorem aux_pattern_five_counterexample :
    oe.contains ((fun (s : String) => s) (deContract (cNode.tokens.headD "")))
        = true ∧
    vbs.contains cN2.type = true ∧
    vbs.contains cNode.type = true ∧
    pa.contains (cNode.tags.headD "") = true ∧
    skipNode (fun s => s) cNode (some cN1) (some cN2) none = false ∧
    ((identifyRoot (fun s => s) [cNode, cN1, cN2]).headD cNode).label =
      some "ROOT" := by
  decide

/-! ### C9 -/

/-- A token that is not a contraction is left unchanged by `deContract`. -/
theorem deContract_of_not_mem (t : String) (h : t ∉ contractions) :
    deContract t = t := by
  have hnone : contractions.indexOf? t = none := by
    rw [List.indexOf?_eq_none_iff]
    intro x hx
    simp only [beq_iff_eq]
    intro heq
    exact h (heq ▸ hx)
  simp [deContract, hnone]

/-- The matcher reads the left node's tokens only through
`conj ∘ deContract` of the first token. -/
theorem matchNodes_deContract_left (conj : String → String)
    (rules : List Rule) (r : Node) (iteration : Int) (l : Node)
    (t t' : String) (ts ts' : List String)
    (h : deContract t = deContract t') :
    matchNodes conj rules (l.setTokens (t :: ts)) r iteration =
      matchNodes conj rules (l.setTokens (t' :: ts')) r iteration := by
  induction rules with
  | nil => rfl
  | cons rel rest ih =>
    rw [matchNodes_cons, matchNodes_cons, ih]
    have hacc : ruleAccepts conj rel (l.setTokens (t :: ts)) r iteration =
        ruleAccepts conj rel (l.setTokens (t' :: ts')) r iteration := by
      simp only [ruleAccepts, Node.type_setTokens, Node.idx1_setTokens,
        Node.label_setTokens, Node.tokens_setTokens, List.headD_cons, h]
    rw [hacc]

/-- The matcher reads the right node's tokens only through
`conj ∘ deContract` of the first token. -/
theorem matchNodes_deContract_right (conj : String → String)
    (rules : List Rule) (l : Node) (iteration : Int) (r : Node)
    (t t' : String) (ts ts' : List String)
    (h : deContract t = deContract t') :
    matchNodes conj rules l (r.setTokens (t :: ts)) iteration =
      matchNodes conj rules l (r.setTokens (t' :: ts')) iteration := by
  induction rules with
  | nil => rfl
  | cons rel rest ih =>
    rw [matchNodes_cons, matchNodes_cons, ih]
    have hacc : ruleAccepts conj rel l (r.setTokens (t :: ts)) iteration =
        ruleAccepts conj rel l (r.setTokens (t' :: ts')) iteration := by
      simp only [ruleAccepts, Node.type_setTokens, Node.idx0_setTokens,
        Node.label_setTokens, Node.left_setTokens, Node.tokens_setTokens,
        List.headD_cons, h]
    rw [hacc]

/-- The root identifier's auxiliary-lemma check reads the next node's
tokens only through `conj ∘ deContract` of the first token. -/
theorem skipNode_deContract (conj : String → String) (node : Node)
    (n1 : Node) (nx2 nx3 : Option Node) (t t' : String)
    (ts ts' : List String) (h : deContract t = deContract t') :
    skipNode conj node (some (n1.setTokens (t :: ts))) nx2 nx3 =
      skipNode conj node (some (n1.setTokens (t' :: ts'))) nx2 nx3 := by
  simp only [skipNode, Node.type_setTokens, Node.tags_setTokens,
    Node.tokens_setTokens, List.headD_cons, h]

/-- C9: the first token is de-contracted via the fixed six-entry table
(`'m→am`, `'s→is`, `'d→would`, `'ll→will`, `'re→are`, `'ve→have`, all
other tokens unchanged) before being handed to the Conjugator, at each of
the three comparison sites: the rule table's left-token check, its
right-token check, and the root identifier's auxiliary-lemma check — in
particular a node whose first token is `'ll` behaves exactly as if it
were `will`. -/
theorem contraction_normalization (conj : String → String) :
    deContract "'m" = "am" ∧ deContract "'s" = "is" ∧
    deContract "'d" = "would" ∧ deContract "'ll" = "will" ∧
    deContract "'re" = "are" ∧ deContract "'ve" = "have" ∧
    (∀ t : String, t ∉ contractions → deContract t = t) ∧
    (∀ (rules : List Rule) (l r : Node) (iteration : Int) (ts : List String),
      matchNodes conj rules (l.setTokens ("'ll" :: ts)) r iteration =
        matchNodes conj rules (l.setTokens ("will" :: ts)) r iteration) ∧
    (∀ (rules : List Rule) (l r : Node) (iteration : Int) (ts : List String),
      matchNodes conj rules l (r.setTokens ("'ll" :: ts)) iteration =
        matchNodes conj rules l (r.setTokens ("will" :: ts)) iteration) ∧
    (∀ (node n1 : Node) (nx2 nx3 : Option Node) (ts : List String),
      skipNode conj node (some (n1.setTokens ("'ll" :: ts))) nx2 nx3 =
        skipNode conj node (some (n1.setTokens ("will" :: ts))) nx2 nx3) := by
  have hll : deContract "'ll" = deContract "will" := by decide
  refine ⟨by decide, by decide, by decide, by decide, by decide, by decide,
    deContract_of_not_mem, ?_, ?_, ?_⟩
  · intro rules l r iteration ts
    exact matchNodes_deContract_left conj rules r iteration l _ _ _ _ hll
  · intro rules l r iteration ts
    exact matchNodes_deContract_right conj rules l iteration r _ _ _ _ hll
  · intro node n1 nx2 nx3 ts
    exact skipNode_deContract conj node n1 nx2 nx3 _ _ _ _ hll

/-- Witness for C9: a non-contraction token is unchanged, and the
contraction row for `'ll` holds. -/
theorem contraction_normalization_witness :
    deContract "cat" = "cat" ∧ deContract "'ll" = "will" :=
  ⟨(contraction_normalization (fun s => s)).2.2.2.2.2.2.1 "cat" (by decide),
    (contraction_normalization (fun s => s)).2.2.2.1⟩

/-! ### C10 -/

theorem Node.label_of_setLabel_eq (n : Node) (s : String)
    (h : n.setLabel s = n) : n.label = some s := by
  have := congrArg Node.label h
  simpa using this.symm

/-- C10: when the scan does not mark any node before the last (no earlier
node is already root-labeled and the scan leaves the prefix untouched),
a final node of candidate-verb type is always marked as the root — every
auxiliary-skipping pattern needs at least one following node, and the last
node has none. -/
theorem last_verb_root (conj : String → String) (ns : List Node) (x : Node)
    (h1 : ∀ n ∈ ns, n.label ≠ some "ROOT")
    (h2 : (identifyRoot conj (ns ++ [x])).take ns.length = ns)
    (h3 : vbs.contains x.type = true) :
    identifyRoot conj (ns ++ [x]) = ns ++ [x.setLabel "ROOT"] := by
  induction ns with
  | nil =>
    simp only [List.nil_append]
    have hskip : skipNode conj x none none none = false := by
      have h3m : x.type ∈ vbs := by simpa using h3
      simp [skipNode, h3m]
    simp [identifyRoot, hskip]
  | cons n rest ih =>
    rw [List.cons_append, identifyRoot] at h2 ⊢
    by_cases hs : skipNode conj n (rest ++ [x])[0]? (rest ++ [x])[1]?
        (rest ++ [x])[2]? = true
    · rw [if_pos hs] at h2 ⊢
      simp only [List.length_cons, List.take_succ_cons, List.cons.injEq] at h2
      rw [List.cons_append, ih (fun m hm => h1 m (List.mem_cons_of_mem _ hm))
        h2.2]
    · rw [if_neg hs] at h2
      exfalso
      simp only [List.length_cons, List.take_succ_cons, List.cons.injEq] at h2
      exact h1 n (List.mem_cons_self _ _)
        (Node.label_of_setLabel_eq n "ROOT" h2.1)

/-- Witness for C10: a noun phrase followed by a final base verb; the
final verb is marked root. -/
theorem last_verb_root_witness :
    identifyRoot (fun s => s) ([wN0] ++ [bN1]) =
      [wN0] ++ [bN1.setLabel "ROOT"] :=
  last_verb_root (fun s => s) [wN0] bN1 (by decide) rfl (by decide)

end EnParse
